import Mathlib

/-!
Verification of the `endio` binary (de)serialization library and its derive
macros, via a shallow embedding of the runtime codecs (src/src/serialize.rs,
src/src/deserialize.rs, src/src/read.rs, src/src/write.rs, src/src/endian.rs)
and of the code emitted by the `#[derive(Serialize)]` / `#[derive(Deserialize)]`
procedural macros (src/endio_derive/src/serialize.rs,
src/endio_derive/src/deserialize.rs, src/endio_derive/src/lib.rs).

Byte streams are modelled as `List Nat` (each produced byte is `< 256`);
readers consume from the front of the list, writers are the infallible
`Vec<u8>` sink, so encoding is a pure function to a byte list.  Fallible
decoding returns `Except DecodeError`.  Machine integers are represented by
their bit patterns as `Nat` with explicit reductions modulo `256 ^ width`;
IEEE-754 floats are represented by their bit patterns, matching the library,
which only ever moves them through `to_bits` / `from_bits`.
-/

namespace Endio

/-- The two byte orders: models the sealed `Endianness` trait with its only
implementors `BigEndian` and `LittleEndian` (src/src/endian.rs). -/
inductive Endianness where
  | be
  | le
deriving DecidableEq, Repr

/-- A byte stream: a list of byte values. -/
abbrev Bytes := List Nat

/-- Value of a byte list interpreted little-endian, first byte least
significant: `<int>::from_le_bytes`. -/
def leVal : Bytes → Nat
  | [] => 0
  | b :: rest => b + 256 * leVal rest

/-- The `w` little-endian bytes of `v`: `<int>::to_le_bytes` for a `w`-byte
integer type holding bit pattern `v`. -/
def leBytes : Nat → Nat → Bytes
  | 0, _ => []
  | w + 1, v => v % 256 :: leBytes w (v / 256)

theorem leBytes_length (w v : Nat) : (leBytes w v).length = w := by
  induction w generalizing v with
  | zero => rfl
  | succ w ih => simp [leBytes, ih]

theorem leVal_leBytes (w v : Nat) (h : v < 256 ^ w) : leVal (leBytes w v) = v := by
  induction w generalizing v with
  | zero => simp [leBytes, leVal]; omega
  | succ w ih =>
    have hdiv : v / 256 < 256 ^ w := by
      rw [pow_succ] at h
      omega
    simp [leBytes, leVal, ih (v / 256) hdiv]
    omega

/-- The byte encoding of a `w`-byte integer bit pattern `v` in byte order `e`:
`to_le_bytes` / `to_be_bytes` (big-endian is the byte-reversal of
little-endian). -/
def uintBytes (e : Endianness) (w v : Nat) : Bytes :=
  match e with
  | .le => leBytes w v
  | .be => (leBytes w v).reverse

/-- The integer bit pattern carried by a byte buffer in byte order `e`:
`from_le_bytes` / `from_be_bytes`. -/
def uintVal (e : Endianness) (bs : Bytes) : Nat :=
  match e with
  | .le => leVal bs
  | .be => leVal bs.reverse

theorem uintBytes_length (e : Endianness) (w v : Nat) :
    (uintBytes e w v).length = w := by
  cases e <;> simp [uintBytes, leBytes_length]

theorem uintVal_uintBytes (e : Endianness) (w v : Nat) (h : v < 256 ^ w) :
    uintVal e (uintBytes e w v) = v := by
  cases e <;> simp [uintBytes, uintVal, leVal_leBytes w v h]

/-- Decode-side failures, mirroring the `std::io::Error` values the library
constructs: `shortRead` for a failed `read_exact` (an `UnexpectedEof`), and
`invalidData msg` for `io::Error::new(ErrorKind::InvalidData, msg)`. -/
inductive DecodeError where
  | shortRead
  | invalidData (msg : String)
deriving DecidableEq, Repr

/-- Reading one fixed-width integer: `read_exact` into a `w`-byte buffer
followed by `from_le_bytes`/`from_be_bytes` (the `impl_int!` macro in
src/src/deserialize.rs). -/
def readUInt (e : Endianness) (w : Nat) (bs : Bytes) :
    Except DecodeError (Nat × Bytes) :=
  if w ≤ bs.length then .ok (uintVal e (bs.take w), bs.drop w)
  else .error .shortRead

theorem readUInt_uintBytes (e : Endianness) (w v : Nat) (rest : Bytes)
    (h : v < 256 ^ w) :
    readUInt e w (uintBytes e w v ++ rest) = .ok (v, rest) := by
  have hlen : (uintBytes e w v).length = w := uintBytes_length e w v
  simp only [readUInt, List.length_append, hlen]
  rw [if_pos (by omega)]
  rw [List.take_left' hlen, List.drop_left' hlen]
  rw [uintVal_uintBytes e w v h]

/-- The `Deserialize` impl for `bool` (src/src/deserialize.rs): read one byte;
0 is `false`, 1 is `true`, anything else is an `InvalidData` error carrying a
fixed message (the offending byte value is not part of the error). -/
def readBool (bs : Bytes) : Except DecodeError (Bool × Bytes) :=
  match bs with
  | [] => .error .shortRead
  | b :: rest =>
    if b = 0 then .ok (false, rest)
    else if b = 1 then .ok (true, rest)
    else .error (.invalidData "bool had value other than 0 or 1")

/-- Bytes emitted for a padding annotation: `n` zero bytes
(`let mut padding = [0; n]; write_all(&padding)` in `gen_write_padding`),
nothing when the annotation is absent. -/
def padBytes : Option Nat → Bytes
  | none => []
  | some n => List.replicate n 0

/-- Skipping padding on decode (`gen_read_padding`): `read_exact` into an
`n`-byte scratch buffer whose contents are discarded, so any byte values are
accepted, but a short read is fatal. -/
def skipPad : Option Nat → Bytes → Except DecodeError Bytes
  | none, bs => .ok bs
  | some n, bs => if n ≤ bs.length then .ok (bs.drop n) else .error .shortRead

theorem skipPad_padBytes (p : Option Nat) (bs : Bytes) :
    skipPad p (padBytes p ++ bs) = .ok bs := by
  cases p with
  | none => rfl
  | some n =>
    simp only [skipPad, padBytes, List.length_append, List.length_replicate]
    rw [if_pos (by omega)]
    rw [List.drop_left' (by simp)]

mutual

/-- The universe of type shapes the derive macros compile, over the field
types that have both a `Serialize` and a `Deserialize` impl in the runtime
library: `bool`, the fixed-width integers (by byte width; signed and unsigned
share a byte codec on bit patterns), `f32`/`f64` (by bit pattern), `Ipv4Addr`,
and nested derived structs and enums.  A struct carries its ordered fields and
the optional `trailing_padding` annotation; an enum carries its type name (as
produced by `stringify!(#name)`), the byte width of its `repr` discriminant
type, the optional pre- and post-discriminant and trailing padding
annotations, and its ordered variants. -/
inductive Ty : Type where
  | boolTy
  | uintTy (w : Nat)
  | f32Ty
  | f64Ty
  | ipv4Ty
  | structTy (fields : FieldList) (trailing : Option Nat)
  | enumTy (name : String) (w : Nat) (pre post trailing : Option Nat)
      (variants : VariantList)

/-- Ordered field list of a struct or of one enum variant: each field has an
optional leading `padding` byte count and a type. -/
inductive FieldList : Type where
  | nil
  | cons (pad : Option Nat) (ty : Ty) (rest : FieldList)

/-- Ordered variant list of an enum: each variant has an optional explicit
discriminant and a field list. -/
inductive VariantList : Type where
  | nil
  | cons (disc : Option Nat) (fields : FieldList) (rest : VariantList)

end

mutual

/-- Runtime instance data moving through the generated procedures. -/
inductive Value : Type where
  | vBool (b : Bool)
  | vUInt (v : Nat)
  | vF32 (bits : Nat)
  | vF64 (bits : Nat)
  | vIpv4 (a b c d : Nat)
  | vStruct (fields : ValueList)
  | vEnum (idx : Nat) (fields : ValueList)

/-- Field values of a struct instance or an enum variant payload, in
declaration order. -/
inductive ValueList : Type where
  | nil
  | cons (v : Value) (rest : ValueList)

end

def VariantList.length : VariantList → Nat
  | .nil => 0
  | .cons _ _ rest => rest.length + 1

/-- Field list of the variant at declaration index `idx`. -/
def fieldsAt : VariantList → Nat → FieldList
  | .nil, _ => .nil
  | .cons _ fields _, 0 => fields
  | .cons _ _ rest, i + 1 => fieldsAt rest i

/-- Emission-time discriminant state of `gen_deser_code_enum`
(src/endio_derive/src/deserialize.rs): an explicit discriminant resets
`last_disc` to the literal and `disc_offset` to 0; otherwise both are kept.
The returned pair is the `(last_disc, disc_offset)` in effect for the current
variant. -/
def discState (disc : Option Nat) (base off : Nat) : Nat × Nat :=
  match disc with
  | some lit => (lit, 0)
  | none => (base, off)

/-- The resolved discriminant values of a variant list in declaration order,
continuing from state `(base, off)`: each variant's value is
`last_disc + disc_offset`, evaluated in the `w`-byte `repr` type, i.e. modulo
`m = 256 ^ w`; `disc_offset` then increments. -/
def resolvedDiscsAux (m : Nat) (base off : Nat) : VariantList → List Nat
  | .nil => []
  | .cons disc _ rest =>
    let s := discState disc base off
    (s.1 + s.2) % m :: resolvedDiscsAux m s.1 (s.2 + 1) rest

/-- Resolved discriminants of a whole variant list (`last_disc` starts at the
literal `0`, `disc_offset` at 0). -/
def resolvedDiscs (m : Nat) (vl : VariantList) : List Nat :=
  resolvedDiscsAux m 0 0 vl

/-- Modelled from the spec: the serializer obtains the discriminant by an
unsafe cast of the enum value's in-memory tag to the `repr` integer type
(`gen_ser_code_enum`, and §9 of the design notes: "Unsafe reinterpretation of
an enum's in-memory tag as an integer").  The tag of a `#[repr(int)]` enum is
the discriminant the Rust language assigns: an explicit literal where given,
otherwise the previous variant's discriminant plus one (zero for a leading
implicit variant), evaluated in the repr type, i.e. modulo `m = 256 ^ w`. -/
def rustDiscsAux (m next : Nat) : VariantList → List Nat
  | .nil => []
  | .cons disc _ rest =>
    let d :=
      match disc with
      | some lit => lit % m
      | none => next % m
    d :: rustDiscsAux m (d + 1) rest

/-- Language-assigned discriminants of a whole variant list. -/
def rustDiscs (m : Nat) (vl : VariantList) : List Nat :=
  rustDiscsAux m 0 vl

theorem rustDiscsAux_eq_resolvedDiscsAux (m : Nat) :
    ∀ (vl : VariantList) (next base off : Nat),
      next % m = (base + off) % m →
      rustDiscsAux m next vl = resolvedDiscsAux m base off vl
  | .nil, _, _, _, _ => rfl
  | .cons none fields rest, next, base, off, h => by
    simp only [rustDiscsAux, resolvedDiscsAux, discState]
    refine congrArg₂ _ h (rustDiscsAux_eq_resolvedDiscsAux m rest _ _ _ ?_)
    have h1 : (next + 1) % m = (base + off + 1) % m := by
      conv_lhs => rw [← Nat.mod_add_mod]
      conv_rhs => rw [← Nat.mod_add_mod]
      rw [h]
    rw [Nat.mod_add_mod, h1, Nat.add_assoc]
  | .cons (some lit) fields rest, next, base, off, h => by
    simp only [rustDiscsAux, resolvedDiscsAux, discState, Nat.add_zero]
    refine congrArg₂ _ rfl (rustDiscsAux_eq_resolvedDiscsAux m rest _ _ _ ?_)
    rw [Nat.mod_add_mod]

/-- The two discriminant derivations agree: the language-assigned tag values
read back by the serializer equal the `last_disc + disc_offset` values the
deserializer's match arms test against. -/
theorem rustDiscs_eq_resolvedDiscs (m : Nat) (vl : VariantList) :
    rustDiscs m vl = resolvedDiscs m vl :=
  rustDiscsAux_eq_resolvedDiscsAux m vl 0 0 0 rfl

theorem resolvedDiscsAux_length (m : Nat) :
    ∀ (vl : VariantList) (base off : Nat),
      (resolvedDiscsAux m base off vl).length = vl.length
  | .nil, _, _ => rfl
  | .cons disc fields rest, base, off => by
    simp only [resolvedDiscsAux, List.length_cons, VariantList.length]
    rw [resolvedDiscsAux_length m rest]

theorem resolvedDiscsAux_getD_lt (m : Nat) (hm : 0 < m) :
    ∀ (vl : VariantList) (base off i : Nat), i < vl.length →
      (resolvedDiscsAux m base off vl).getD i 0 < m
  | .nil, _, _, i, hi => by simp [VariantList.length] at hi
  | .cons disc fields rest, base, off, 0, hi => by
    simpa [resolvedDiscsAux] using Nat.mod_lt _ hm
  | .cons disc fields rest, base, off, i + 1, hi => by
    simp only [resolvedDiscsAux, List.getD_cons_succ]
    exact resolvedDiscsAux_getD_lt m hm rest _ _ i
      (by simpa [VariantList.length] using hi)

theorem resolvedDiscsAux_getD_mem (m base off : Nat) (vl : VariantList)
    (i : Nat) (hi : i < vl.length) :
    (resolvedDiscsAux m base off vl).getD i 0 ∈ resolvedDiscsAux m base off vl := by
  have hlen : i < (resolvedDiscsAux m base off vl).length := by
    rw [resolvedDiscsAux_length]; exact hi
  rw [List.getD_eq_getElem _ _ hlen]
  exact List.getElem_mem hlen

mutual

/-- The encode procedure: the code emitted by `#[derive(Serialize)]`
(`gen_ser_code_struct` / `gen_ser_code_enum` followed by the trailing-padding
write) together with the primitive `Serialize` impls of src/src/serialize.rs,
writing into an infallible byte buffer.  For an enum the emitted code writes
pre-discriminant padding, the discriminant obtained from the value's language
tag, post-discriminant padding, the matched variant's fields, and trailing
padding.  A value that does not inhabit the given type is unrepresentable in
the typed Rust source; such junk inputs serialize to `[]`. -/
def serialize (e : Endianness) : Ty → Value → Bytes
  | .boolTy, .vBool b => [if b then 1 else 0]
  | .uintTy w, .vUInt v => uintBytes e w v
  | .f32Ty, .vF32 bits => uintBytes e 4 bits
  | .f64Ty, .vF64 bits => uintBytes e 8 bits
  | .ipv4Ty, .vIpv4 a b c d => [a, b, c, d]
  | .structTy fields trailing, .vStruct vs =>
    serializeFields e fields vs ++ padBytes trailing
  | .enumTy _ w pre post trailing variants, .vEnum idx vs =>
    padBytes pre ++ uintBytes e w ((rustDiscs (256 ^ w) variants).getD idx 0)
      ++ padBytes post ++ serializeVariantFields e variants idx vs
      ++ padBytes trailing
  | _, _ => []

/-- Field-by-field encoding in declaration order: each field's leading padding
followed by its value. -/
def serializeFields (e : Endianness) : FieldList → ValueList → Bytes
  | .nil, _ => []
  | .cons _ _ _, .nil => []
  | .cons pad ty rest, .cons v vs =>
    padBytes pad ++ serialize e ty v ++ serializeFields e rest vs

/-- Encoding of the payload of the variant at index `idx`: the emitted `match`
arm for the value's variant writes that variant's fields. -/
def serializeVariantFields (e : Endianness) : VariantList → Nat → ValueList → Bytes
  | .nil, _, _ => []
  | .cons _ fields _, 0, vs => serializeFields e fields vs
  | .cons _ _ rest, i + 1, vs => serializeVariantFields e rest i vs

end

mutual

/-- The decode procedure: the code emitted by `#[derive(Deserialize)]`
(`gen_deser_code_struct` / `gen_deser_code_enum` followed by the
trailing-padding read) together with the primitive `Deserialize` impls of
src/src/deserialize.rs.  Consumes from the front of the byte stream and
returns the decoded value with the unconsumed remainder, or the first error
raised. -/
def deserialize (e : Endianness) : Ty → Bytes → Except DecodeError (Value × Bytes)
  | .boolTy, bs =>
    match readBool bs with
    | .error err => .error err
    | .ok (b, rest) => .ok (.vBool b, rest)
  | .uintTy w, bs =>
    match readUInt e w bs with
    | .error err => .error err
    | .ok (v, rest) => .ok (.vUInt v, rest)
  | .f32Ty, bs =>
    match readUInt e 4 bs with
    | .error err => .error err
    | .ok (v, rest) => .ok (.vF32 v, rest)
  | .f64Ty, bs =>
    match readUInt e 8 bs with
    | .error err => .error err
    | .ok (v, rest) => .ok (.vF64 v, rest)
  | .ipv4Ty, bs =>
    match bs with
    | a :: b :: c :: d :: rest => .ok (.vIpv4 a b c d, rest)
    | _ => .error .shortRead
  | .structTy fields trailing, bs =>
    match deserializeFields e fields bs with
    | .error err => .error err
    | .ok (vs, bs1) =>
      match skipPad trailing bs1 with
      | .error err => .error err
      | .ok bs2 => .ok (.vStruct vs, bs2)
  | .enumTy name w pre post trailing variants, bs =>
    match skipPad pre bs with
    | .error err => .error err
    | .ok bs1 =>
      match readUInt e w bs1 with
      | .error err => .error err
      | .ok (d, bs2) =>
        match skipPad post bs2 with
        | .error err => .error err
        | .ok bs3 =>
          match deserializeVariants e name (256 ^ w) d 0 0 variants bs3 with
          | .error err => .error err
          | .ok (i, vs, bs4) =>
            match skipPad trailing bs4 with
            | .error err => .error err
            | .ok bs5 => .ok (.vEnum i vs, bs5)

/-- Field-by-field decoding in declaration order: each field's leading padding
is skipped, then its value is read. -/
def deserializeFields (e : Endianness) : FieldList → Bytes → Except DecodeError (ValueList × Bytes)
  | .nil, bs => .ok (.nil, bs)
  | .cons pad ty rest, bs =>
    match skipPad pad bs with
    | .error err => .error err
    | .ok bs1 =>
      match deserialize e ty bs1 with
      | .error err => .error err
      | .ok (v, bs2) =>
        match deserializeFields e rest bs2 with
        | .error err => .error err
        | .ok (vs, bs3) => .ok (.cons v vs, bs3)

/-- The emitted `match` over the read discriminant `d`: one guard arm per
variant in declaration order, testing `d == last_disc + disc_offset` in the
repr type, the first match decoding that variant's fields; the default arm
fails with the invalid-discriminant `InvalidData` error carrying the type
name and the read value. -/
def deserializeVariants (e : Endianness) (name : String) (m d : Nat) (base off : Nat) :
    VariantList → Bytes → Except DecodeError (Nat × ValueList × Bytes)
  | .nil, _ =>
    .error (.invalidData
      ("invalid discriminant value for " ++ name ++ ": " ++ Nat.repr d))
  | .cons disc fields rest, bs =>
    let s := discState disc base off
    if d = (s.1 + s.2) % m then
      match deserializeFields e fields bs with
      | .error err => .error err
      | .ok (vs, bs1) => .ok (0, vs, bs1)
    else
      match deserializeVariants e name m d s.1 (s.2 + 1) rest bs with
      | .error err => .error err
      | .ok (i, vs, bs1) => .ok (i + 1, vs, bs1)

end

mutual

/-- Value `v` inhabits type `t`: in the Rust source this is the static typing
of the instance (integer and float bit patterns fit their width, IPv4 octets
are bytes, an enum value is one of the declared variants with a conforming
payload). -/
def conforms : Ty → Value → Bool
  | .boolTy, .vBool _ => true
  | .uintTy w, .vUInt v => decide (v < 256 ^ w)
  | .f32Ty, .vF32 bits => decide (bits < 256 ^ 4)
  | .f64Ty, .vF64 bits => decide (bits < 256 ^ 8)
  | .ipv4Ty, .vIpv4 a b c d =>
    decide (a < 256) && decide (b < 256) && decide (c < 256) && decide (d < 256)
  | .structTy fields _, .vStruct vs => conformsFields fields vs
  | .enumTy _ _ _ _ _ variants, .vEnum idx vs => conformsVariant variants idx vs
  | _, _ => false

def conformsFields : FieldList → ValueList → Bool
  | .nil, .nil => true
  | .cons _ ty rest, .cons v vs => conforms ty v && conformsFields rest vs
  | _, _ => false

def conformsVariant : VariantList → Nat → ValueList → Bool
  | .nil, _, _ => false
  | .cons _ fields _, 0, vs => conformsFields fields vs
  | .cons _ _ rest, i + 1, vs => conformsVariant rest i vs

end

mutual

/-- Type `t` is one the Rust compiler accepts: every field type recursively
is, and every enum's resolved discriminants are pairwise distinct — rustc
rejects an enum in which two variants end up with the same discriminant
value (error E0081), so only such types reach the derive macros. -/
def wf : Ty → Bool
  | .boolTy => true
  | .uintTy _ => true
  | .f32Ty => true
  | .f64Ty => true
  | .ipv4Ty => true
  | .structTy fields _ => wfFields fields
  | .enumTy _ w _ _ _ variants =>
    wfVariants variants && decide (resolvedDiscs (256 ^ w) variants).Nodup

def wfFields : FieldList → Bool
  | .nil => true
  | .cons _ ty rest => wf ty && wfFields rest

def wfVariants : VariantList → Bool
  | .nil => true
  | .cons _ fields rest => wfFields fields && wfVariants rest

end

theorem conformsVariant_lt :
    ∀ (vl : VariantList) (idx : Nat) (vs : ValueList),
      conformsVariant vl idx vs = true → idx < vl.length
  | .nil, idx, vs, h => by simp [conformsVariant] at h
  | .cons d f rest, 0, vs, h => by simp [VariantList.length]
  | .cons d f rest, i + 1, vs, h => by
    have := conformsVariant_lt rest i vs (by simpa [conformsVariant] using h)
    simp only [VariantList.length]
    omega

theorem deserialize_structTy_eq {e : Endianness} {fl : FieldList}
    {tr : Option Nat} {bs : Bytes} {vs : ValueList} {bs1 bs2 : Bytes}
    (h1 : deserializeFields e fl bs = .ok (vs, bs1))
    (h2 : skipPad tr bs1 = .ok bs2) :
    deserialize e (.structTy fl tr) bs = .ok (.vStruct vs, bs2) := by
  simp [deserialize, h1, h2]

theorem deserialize_enumTy_eq {e : Endianness} {name : String} {w : Nat}
    {pre post tr : Option Nat} {vl : VariantList} {bs bs1 : Bytes} {d : Nat}
    {bs2 bs3 : Bytes} {i : Nat} {vs : ValueList} {bs4 bs5 : Bytes}
    (h1 : skipPad pre bs = .ok bs1)
    (h2 : readUInt e w bs1 = .ok (d, bs2))
    (h3 : skipPad post bs2 = .ok bs3)
    (h4 : deserializeVariants e name (256 ^ w) d 0 0 vl bs3 = .ok (i, vs, bs4))
    (h5 : skipPad tr bs4 = .ok bs5) :
    deserialize e (.enumTy name w pre post tr vl) bs = .ok (.vEnum i vs, bs5) := by
  simp [deserialize, h1, h2, h3, h4, h5]

theorem deserializeFields_cons_eq {e : Endianness} {pad : Option Nat} {ty : Ty}
    {fl : FieldList} {bs bs1 : Bytes} {v : Value} {bs2 : Bytes} {vs : ValueList}
    {bs3 : Bytes}
    (h1 : skipPad pad bs = .ok bs1)
    (h2 : deserialize e ty bs1 = .ok (v, bs2))
    (h3 : deserializeFields e fl bs2 = .ok (vs, bs3)) :
    deserializeFields e (.cons pad ty fl) bs = .ok (.cons v vs, bs3) := by
  simp [deserializeFields, h1, h2, h3]

mutual

/-- Decoding inverts encoding, type by type, for well-formed types and
conforming values, leaving any following bytes untouched. -/
theorem deserialize_serialize :
    ∀ (t : Ty) (v : Value) (e : Endianness) (rest : Bytes),
      wf t = true → conforms t v = true →
      deserialize e t (serialize e t v ++ rest) = .ok (v, rest)
  | .boolTy, v, e, rest, hwf, hc => by
    cases v
    case vBool b => cases b <;> simp [serialize, deserialize, readBool]
    all_goals simp [conforms] at hc
  | .uintTy w, v, e, rest, hwf, hc => by
    cases v
    case vUInt n =>
      simp only [conforms, decide_eq_true_eq] at hc
      simp only [serialize, deserialize]
      rw [readUInt_uintBytes e w n rest hc]
    all_goals simp [conforms] at hc
  | .f32Ty, v, e, rest, hwf, hc => by
    cases v
    case vF32 bits =>
      simp only [conforms, decide_eq_true_eq] at hc
      simp only [serialize, deserialize]
      rw [readUInt_uintBytes e 4 bits rest hc]
    all_goals simp [conforms] at hc
  | .f64Ty, v, e, rest, hwf, hc => by
    cases v
    case vF64 bits =>
      simp only [conforms, decide_eq_true_eq] at hc
      simp only [serialize, deserialize]
      rw [readUInt_uintBytes e 8 bits rest hc]
    all_goals simp [conforms] at hc
  | .ipv4Ty, v, e, rest, hwf, hc => by
    cases v
    case vIpv4 a b c d => simp [serialize, deserialize]
    all_goals simp [conforms] at hc
  | .structTy fl tr, v, e, rest, hwf, hc => by
    cases v
    case vStruct vs =>
      simp only [wf] at hwf
      simp only [conforms] at hc
      have h1 := deserializeFields_serializeFields fl vs e (padBytes tr ++ rest) hwf hc
      have h2 := skipPad_padBytes tr rest
      have h3 := deserialize_structTy_eq h1 h2
      simpa [serialize, List.append_assoc] using h3
    all_goals simp [conforms] at hc
  | .enumTy name w pre post tr vl, v, e, rest, hwf, hc => by
    cases v
    case vEnum idx vs =>
      simp only [wf, Bool.and_eq_true, decide_eq_true_eq] at hwf
      simp only [conforms] at hc
      have hidx : idx < vl.length := conformsVariant_lt vl idx vs hc
      have hmpos : 0 < 256 ^ w := pow_pos (by norm_num) w
      have hdlt := resolvedDiscsAux_getD_lt (256 ^ w) hmpos vl 0 0 idx hidx
      have h4 := deserializeVariants_serializeVariantFields vl idx vs e name
        (256 ^ w) 0 0 (padBytes tr ++ rest) hwf.1 hwf.2 hc
      have h1 := skipPad_padBytes pre
        (uintBytes e w ((resolvedDiscsAux (256 ^ w) 0 0 vl).getD idx 0)
          ++ (padBytes post ++ (serializeVariantFields e vl idx vs
            ++ (padBytes tr ++ rest))))
      have h2 := readUInt_uintBytes e w
        ((resolvedDiscsAux (256 ^ w) 0 0 vl).getD idx 0)
        (padBytes post ++ (serializeVariantFields e vl idx vs
          ++ (padBytes tr ++ rest))) hdlt
      have h3 := skipPad_padBytes post
        (serializeVariantFields e vl idx vs ++ (padBytes tr ++ rest))
      have h5 := skipPad_padBytes tr rest
      have hfinal := deserialize_enumTy_eq h1 h2 h3 h4 h5
      simp only [serialize, rustDiscs_eq_resolvedDiscs]
      simpa [resolvedDiscs, List.append_assoc] using hfinal
    all_goals simp [conforms] at hc

/-- Field-list decoding inverts field-list encoding. -/
theorem deserializeFields_serializeFields :
    ∀ (fl : FieldList) (vs : ValueList) (e : Endianness) (rest : Bytes),
      wfFields fl = true → conformsFields fl vs = true →
      deserializeFields e fl (serializeFields e fl vs ++ rest) = .ok (vs, rest)
  | .nil, vs, e, rest, _, hc => by
    cases vs
    case nil => simp [serializeFields, deserializeFields]
    case cons v vs => simp [conformsFields] at hc
  | .cons pad ty fl, vs, e, rest, hwf, hc => by
    cases vs
    case nil => simp [conformsFields] at hc
    case cons v vs =>
      simp only [wfFields, Bool.and_eq_true] at hwf
      simp only [conformsFields, Bool.and_eq_true] at hc
      have h1 := skipPad_padBytes pad
        (serialize e ty v ++ (serializeFields e fl vs ++ rest))
      have h2 := deserialize_serialize ty v e (serializeFields e fl vs ++ rest)
        hwf.1 hc.1
      have h3 := deserializeFields_serializeFields fl vs e rest hwf.2 hc.2
      have h4 := deserializeFields_cons_eq h1 h2 h3
      simpa [serializeFields, List.append_assoc] using h4

/-- The discriminant dispatch selects exactly the encoded variant when the
resolved discriminants are pairwise distinct, and decodes its payload. -/
theorem deserializeVariants_serializeVariantFields :
    ∀ (vl : VariantList) (idx : Nat) (vs : ValueList) (e : Endianness)
      (name : String) (m base off : Nat) (tail : Bytes),
      wfVariants vl = true →
      (resolvedDiscsAux m base off vl).Nodup →
      conformsVariant vl idx vs = true →
      deserializeVariants e name m ((resolvedDiscsAux m base off vl).getD idx 0)
          base off vl (serializeVariantFields e vl idx vs ++ tail)
        = .ok (idx, vs, tail)
  | .nil, idx, vs, e, name, m, base, off, tail, _, _, hc => by
    simp [conformsVariant] at hc
  | .cons disc fields rest, 0, vs, e, name, m, base, off, tail, hwf, hnd, hc => by
    simp only [wfVariants, Bool.and_eq_true] at hwf
    simp only [conformsVariant] at hc
    have h2 := deserializeFields_serializeFields fields vs e tail hwf.1 hc
    simp only [resolvedDiscsAux, List.getD_cons_zero, serializeVariantFields,
      deserializeVariants]
    simp [h2]
  | .cons disc fields rest, i + 1, vs, e, name, m, base, off, tail, hwf, hnd, hc => by
    simp only [wfVariants, Bool.and_eq_true] at hwf
    simp only [conformsVariant] at hc
    simp only [resolvedDiscsAux, List.nodup_cons] at hnd
    have hi : i < rest.length := conformsVariant_lt rest i vs hc
    have hmem := resolvedDiscsAux_getD_mem m (discState disc base off).1
      ((discState disc base off).2 + 1) rest i hi
    have hne : (resolvedDiscsAux m (discState disc base off).1
        ((discState disc base off).2 + 1) rest).getD i 0
        ≠ ((discState disc base off).1 + (discState disc base off).2) % m := by
      intro h
      exact hnd.1 (h ▸ hmem)
    have hrec := deserializeVariants_serializeVariantFields rest i vs e name m
      (discState disc base off).1 ((discState disc base off).2 + 1) tail
      hwf.2 hnd.2 hc
    simp only [resolvedDiscsAux, List.getD_cons_succ, serializeVariantFields,
      deserializeVariants]
    rw [if_neg hne, hrec]

end

namespace ERead

/-- `ERead::read` (src/src/read.rs): reads in the reader's ambient endianness
`e`; the default body delegates to `D::deserialize` at that endianness. -/
def read (e : Endianness) (t : Ty) (bs : Bytes) : Except DecodeError (Value × Bytes) :=
  deserialize e t bs

/-- `ERead::read_be`: reads in forced big endian, whatever the ambient
endianness of the reader. -/
def read_be (t : Ty) (bs : Bytes) : Except DecodeError (Value × Bytes) :=
  deserialize .be t bs

/-- `ERead::read_le`: reads in forced little endian. -/
def read_le (t : Ty) (bs : Bytes) : Except DecodeError (Value × Bytes) :=
  deserialize .le t bs

end ERead

namespace BERead

/-- `BERead::read` (the big-endian wrapper trait): ambient order is big. -/
def read (t : Ty) (bs : Bytes) : Except DecodeError (Value × Bytes) :=
  deserialize .be t bs

/-- `BERead::read_be`. -/
def read_be (t : Ty) (bs : Bytes) : Except DecodeError (Value × Bytes) :=
  deserialize .be t bs

/-- `BERead::read_le`. -/
def read_le (t : Ty) (bs : Bytes) : Except DecodeError (Value × Bytes) :=
  deserialize .le t bs

end BERead

namespace LERead

/-- `LERead::read` (the little-endian wrapper trait): ambient order is
little. -/
def read (t : Ty) (bs : Bytes) : Except DecodeError (Value × Bytes) :=
  deserialize .le t bs

/-- `LERead::read_be`. -/
def read_be (t : Ty) (bs : Bytes) : Except DecodeError (Value × Bytes) :=
  deserialize .be t bs

/-- `LERead::read_le`. -/
def read_le (t : Ty) (bs : Bytes) : Except DecodeError (Value × Bytes) :=
  deserialize .le t bs

end LERead

namespace EWrite

/-- `EWrite::write` (src/src/write.rs): writes in the writer's ambient
endianness `e`; the default body delegates to `Serialize::serialize` at that
endianness. -/
def write (e : Endianness) (t : Ty) (v : Value) : Bytes :=
  serialize e t v

/-- `EWrite::write_be`: writes in forced big endian. -/
def write_be (t : Ty) (v : Value) : Bytes :=
  serialize .be t v

/-- `EWrite::write_le`: writes in forced little endian. -/
def write_le (t : Ty) (v : Value) : Bytes :=
  serialize .le t v

end EWrite

namespace BEWrite

/-- `BEWrite::write`: ambient order is big. -/
def write (t : Ty) (v : Value) : Bytes :=
  serialize .be t v

/-- `BEWrite::write_be`. -/
def write_be (t : Ty) (v : Value) : Bytes :=
  serialize .be t v

/-- `BEWrite::write_le`. -/
def write_le (t : Ty) (v : Value) : Bytes :=
  serialize .le t v

end BEWrite

namespace LEWrite

/-- `LEWrite::write`: ambient order is little. -/
def write (t : Ty) (v : Value) : Bytes :=
  serialize .le t v

/-- `LEWrite::write_be`. -/
def write_be (t : Ty) (v : Value) : Bytes :=
  serialize .be t v

/-- `LEWrite::write_le`. -/
def write_le (t : Ty) (v : Value) : Bytes :=
  serialize .le t v

end LEWrite

/-- One parsed `name = value` integer attribute attached to a type or a
field. -/
abbrev Attr := String × Nat

/-- `get_padding` (src/endio_derive/src/lib.rs): scan the attribute list for
the first attribute whose path is `attr_name` and return its integer literal;
`none` when the attribute is absent. -/
def get_padding (attrs : List Attr) (attr_name : String) : Option Nat :=
  match attrs.find? (fun a => a.1 == attr_name) with
  | some a => some a.2
  | none => none

/-- `get_field_padding`: the field-level `padding` annotation. -/
def get_field_padding (attrs : List Attr) : Option Nat :=
  get_padding attrs "padding"

/-- `get_post_disc_padding`: the type-level `post_disc_padding` annotation. -/
def get_post_disc_padding (attrs : List Attr) : Option Nat :=
  get_padding attrs "post_disc_padding"

/-- `get_trailing_padding`: the type-level `trailing_padding` annotation. -/
def get_trailing_padding (attrs : List Attr) : Option Nat :=
  get_padding attrs "trailing_padding"

/-- Modelled from the spec: `get_pre_disc_padding` is called by both derive
entry points (src/endio_derive/src/deserialize.rs and
src/endio_derive/src/serialize.rs import it from the crate root), but its
definition is absent from the provided sources.  Per the annotation surface —
"per-type pre-discriminant padding byte counts ... all are optional; absence
means zero bytes" and the documented attribute form `pre_disc_padding = n` —
it reads the type-level `pre_disc_padding` annotation exactly as the other
padding getters do. -/
def get_pre_disc_padding (attrs : List Attr) : Option Nat :=
  get_padding attrs "pre_disc_padding"

/-- The targets of the primitive codec impls in the runtime library. -/
inductive CodecKind where
  | boolK
  | u8K
  | u16K
  | u32K
  | u64K
  | u128K
  | i8K
  | i16K
  | i32K
  | i64K
  | i128K
  | f32K
  | f64K
  | ipv4K
  | optionK
  | sliceK
  | vecK
deriving DecidableEq, Repr

/-- The `Serialize` impl blocks of src/src/serialize.rs, in source order:
`&[S]`, `&Vec<S>`, the ten integer types (via `impl_int!`), `f32`, `f64`,
`bool`, `Ipv4Addr`.  No `Serialize` impl for `Option<T>` appears in the
source. -/
def serializeImpls : List CodecKind :=
  [.sliceK, .vecK, .u8K, .u16K, .u32K, .u64K, .u128K,
   .i8K, .i16K, .i32K, .i64K, .i128K, .f32K, .f64K, .boolK, .ipv4K]

/-- The `Deserialize` impl blocks of src/src/deserialize.rs, in source order:
`bool`, `i8`, `u8`, the eight multi-byte integer types (via `impl_int!`),
`f32`, `f64`, `Ipv4Addr`, `Option<T>`.  No `Deserialize` impl for `&[S]` or
`Vec<S>` appears in the source. -/
def deserializeImpls : List CodecKind :=
  [.boolK, .i8K, .u8K, .u16K, .u32K, .u64K, .u128K,
   .i16K, .i32K, .i64K, .i128K, .f32K, .f64K, .ipv4K, .optionK]

/-- The element-wise sequence serializer (`impl Serialize for &[S]`,
src/src/serialize.rs): `for elem in self { writer.write(elem)?; }` — each
element is written in order through the element codec `enc`, with nothing
before, between, or after the elements. -/
def serializeSlice (enc : α → Bytes) : List α → Bytes
  | [] => []
  | x :: xs => enc x ++ serializeSlice enc xs

/-- Bit-pattern reinterpretation `f32::from_bits` on decoded values: the
`u32` read by the f32 codec becomes the f32 with that bit pattern. -/
def f32FromBits : Value → Value
  | .vUInt v => .vF32 v
  | v => v

/-- Bit-pattern reinterpretation `f64::from_bits` on decoded values. -/
def f64FromBits : Value → Value
  | .vUInt v => .vF64 v
  | v => v

/-- A sample union type used to instantiate the round-trip law: discriminant
width 2 bytes, post-discriminant padding 1, trailing padding 2, a unit variant
and an explicit-discriminant variant carrying a padded 4-byte integer field. -/
def demoTy : Ty :=
  .enumTy "Demo" 2 none (some 1) (some 2)
    (.cons none .nil
      (.cons (some 42) (.cons (some 1) (.uintTy 4) .nil) .nil))

/-- A sample instance of `demoTy`: the second variant. -/
def demoVal : Value := .vEnum 1 (.cons (.vUInt 0xBAADF00D) .nil)

/-- C1: for every type (record or union) with derived Serialize and
Deserialize and every valid instance `v`, deserializing the byte sequence
produced by serializing `v` under a fixed byte order yields exactly `v`
(consuming exactly those bytes), independently for big-endian and for
little-endian.  `wf` captures the types rustc accepts (in particular,
pairwise-distinct resolved discriminants, which the compiler enforces as
error E0081); `conforms` captures that `v` inhabits the type, which Rust's
static typing guarantees; floats are compared by bit pattern. -/
theorem derive_round_trip (e : Endianness) (t : Ty) (v : Value)
    (hwf : wf t = true) (hc : conforms t v = true) :
    deserialize e t (serialize e t v) = .ok (v, []) := by
  have h := deserialize_serialize t v e [] hwf hc
  simpa using h

/-- Witness for C1 at a concrete union type and instance, under both byte
orders. -/
theorem derive_round_trip_witness :
    (wf demoTy = true ∧ conforms demoTy demoVal = true)
    ∧ deserialize .be demoTy (serialize .be demoTy demoVal) = .ok (demoVal, [])
    ∧ deserialize .le demoTy (serialize .le demoTy demoVal) = .ok (demoVal, []) :=
  ⟨⟨by decide, by decide⟩,
    derive_round_trip .be demoTy demoVal (by decide) (by decide),
    derive_round_trip .le demoTy demoVal (by decide) (by decide)⟩

/-- C6 counterexample: decoding byte `0x2A` as a boolean fails with the
`InvalidData` error, but the error carries a fixed message: decoding the
different offending byte `0x2B` produces the very same error, so the error
does not surface the offending byte value, contrary to the claim. -/
theorem bool_error_no_byte :
    deserialize .be .boolTy [0x2A]
      = .error (.invalidData "bool had value other than 0 or 1")
    ∧ deserialize .le .boolTy [0x2A]
      = .error (.invalidData "bool had value other than 0 or 1")
    ∧ deserialize .le .boolTy [0x2B] = deserialize .le .boolTy [0x2A] :=
  ⟨rfl, rfl, rfl⟩

/-- C6 (amended): under both byte orders, decoding byte 0 as a boolean yields
`false`, byte 1 yields `true`, and any other byte fails with an `InvalidData`
error carrying a fixed message that does not include the offending byte;
encoding writes `false` as `0x00` and `true` as `0x01`. -/
theorem bool_codec_fixed_message (e : Endianness) (b : Nat) (rest : Bytes) :
    deserialize e .boolTy (b :: rest)
      = (if b = 0 then .ok (.vBool false, rest)
         else if b = 1 then .ok (.vBool true, rest)
         else .error (.invalidData "bool had value other than 0 or 1"))
    ∧ serialize e .boolTy (.vBool false) = [0]
    ∧ serialize e .boolTy (.vBool true) = [1] := by
  refine ⟨?_, rfl, rfl⟩
  by_cases h0 : b = 0
  · simp [deserialize, readBool, h0]
  · by_cases h1 : b = 1 <;> simp [deserialize, readBool, h0, h1]

/-- The record of the padding-skip property: a 1-byte leading pad before a
4-byte unsigned integer field, no trailing padding. -/
def paddedRec : Ty := .structTy (.cons (some 1) (.uintTy 4) .nil) none

/-- The instance holding `0xBAADF00D`. -/
def paddedVal : Value := .vStruct (.cons (.vUInt 0xBAADF00D) .nil)

/-- C7: decoding the 5-byte sequence `b 0D F0 AD BA` under little-endian
discards the leading pad byte — whatever its value, covering `FF` and showing
padding content is never validated — and yields `0xBAADF00D`; encoding that
value emits `00 0D F0 AD BA`, the pad byte written as zero rather than
preserved. -/
theorem padding_skip_correctness (b : Nat) :
    deserialize .le paddedRec [b, 0x0D, 0xF0, 0xAD, 0xBA] = .ok (paddedVal, [])
    ∧ serialize .le paddedRec paddedVal = [0x00, 0x0D, 0xF0, 0xAD, 0xBA] := by
  constructor
  · have h1 : skipPad (some 1) [b, 0x0D, 0xF0, 0xAD, 0xBA]
        = .ok [0x0D, 0xF0, 0xAD, 0xBA] := by simp [skipPad]
    have h2 : deserialize .le (.uintTy 4) [0x0D, 0xF0, 0xAD, 0xBA]
        = .ok (.vUInt 0xBAADF00D, []) := rfl
    have h3 : deserializeFields .le .nil [] = .ok (.nil, []) := rfl
    exact deserialize_structTy_eq (deserializeFields_cons_eq h1 h2 h3) rfl
  · rfl

/-- C8: for both byte orders, decoding an `f32` (resp. `f64`) equals decoding
a `u32` (resp. `u64`) from the same bytes followed by the `from_bits`
reinterpretation — including identical failure behaviour, since the equation
covers the error cases — and encoding an `f32`/`f64` writes exactly the bytes
of its `to_bits` integer (an `f32` value is represented by its bit
pattern). -/
theorem float_codec_bitcast (e : Endianness) (bs : Bytes) (bits : Nat) :
    (deserialize e .f32Ty bs
      = (deserialize e (.uintTy 4) bs).map (fun p => (f32FromBits p.1, p.2)))
    ∧ (deserialize e .f64Ty bs
      = (deserialize e (.uintTy 8) bs).map (fun p => (f64FromBits p.1, p.2)))
    ∧ serialize e .f32Ty (.vF32 bits) = serialize e (.uintTy 4) (.vUInt bits)
    ∧ serialize e .f64Ty (.vF64 bits) = serialize e (.uintTy 8) (.vUInt bits) := by
  refine ⟨?_, ?_, rfl, rfl⟩
  · simp only [deserialize]
    cases readUInt e 4 bs with
    | error err => simp [Except.map]
    | ok p => cases p with
      | mk v r => simp [Except.map, f32FromBits]
  · simp only [deserialize]
    cases readUInt e 8 bs with
    | error err => simp [Except.map]
    | ok p => cases p with
      | mk v r => simp [Except.map, f64FromBits]

/-- C9: the forced-order entry points always use their named byte order
regardless of ambient context: for every type and byte stream or value,
`read_be`/`write_be` behave identically to the generic `read`/`write`
instantiated at big-endian, and `read_le`/`write_le` at little-endian, no
matter which of the three traits (generic `ERead`/`EWrite`, big-endian
`BERead`/`BEWrite`, little-endian `LERead`/`LEWrite`) supplies the method. -/
theorem forced_order_entry_points (t : Ty) (bs : Bytes) (v : Value) :
    (ERead.read_be t bs = ERead.read .be t bs
      ∧ ERead.read_le t bs = ERead.read .le t bs)
    ∧ (BERead.read t bs = ERead.read .be t bs
      ∧ BERead.read_be t bs = ERead.read .be t bs
      ∧ BERead.read_le t bs = ERead.read .le t bs)
    ∧ (LERead.read t bs = ERead.read .le t bs
      ∧ LERead.read_be t bs = ERead.read .be t bs
      ∧ LERead.read_le t bs = ERead.read .le t bs)
    ∧ (EWrite.write_be t v = EWrite.write .be t v
      ∧ EWrite.write_le t v = EWrite.write .le t v)
    ∧ (BEWrite.write t v = EWrite.write .be t v
      ∧ BEWrite.write_be t v = EWrite.write .be t v
      ∧ BEWrite.write_le t v = EWrite.write .le t v)
    ∧ (LEWrite.write t v = EWrite.write .le t v
      ∧ LEWrite.write_be t v = EWrite.write .be t v
      ∧ LEWrite.write_le t v = EWrite.write .le t v) :=
  ⟨⟨rfl, rfl⟩, ⟨rfl, rfl, rfl⟩, ⟨rfl, rfl, rfl⟩,
    ⟨rfl, rfl⟩, ⟨rfl, rfl, rfl⟩, ⟨rfl, rfl, rfl⟩⟩

/-- C10: for every enum, the discriminant values the serializer obtains by
reading the value's in-memory tag as the declared repr integer (the
language-assigned numbering: explicit literal, else previous plus one) equal
the resolved discriminants (`last_disc + disc_offset`, reset by explicit
overrides) the deserializer's match arms compute, variant by variant, for
every repr modulus. -/
theorem serializer_tag_eq_resolver_disc (m : Nat) (vl : VariantList) :
    rustDiscs m vl = resolvedDiscs m vl :=
  rustDiscs_eq_resolvedDiscs m vl

/-- The variant list of the union `Example { A, B, C = 42, D }`. -/
def exampleVariants : VariantList :=
  .cons none .nil (.cons none .nil (.cons (some 42) .nil (.cons none .nil .nil)))

/-- The union `#[repr(u16)] Example { A, B, C = 42, D }` with no padding
annotations. -/
def exampleEnum : Ty := .enumTy "Example" 2 none none none exampleVariants

/-- C2: for `Example { A, B, C = 42, D }` the discriminant resolution yields
`A = 0, B = 1, C = 42, D = 43`; decoding discriminant 1 yields `B`, decoding
43 yields `D`, and decoding any other value representable in the `u16`
discriminant — in particular all of `{2..41}` and `{44..65535}` — fails with
the invalid-discriminant `InvalidData` error carrying the type name and the
read value. -/
theorem union_discriminant_numbering :
    resolvedDiscs (256 ^ 2) exampleVariants = [0, 1, 42, 43]
    ∧ deserialize .le exampleEnum [1, 0] = .ok (.vEnum 1 .nil, [])
    ∧ deserialize .le exampleEnum [43, 0] = .ok (.vEnum 3 .nil, [])
    ∧ ∀ (e : Endianness) (d : Nat),
        ((2 ≤ d ∧ d ≤ 41) ∨ (44 ≤ d ∧ d < 65536)) →
        deserialize e exampleEnum (uintBytes e 2 d)
          = .error (.invalidData
              ("invalid discriminant value for Example: " ++ Nat.repr d)) := by
  refine ⟨by decide, rfl, rfl, ?_⟩
  intro e d hd
  have hlt : d < 256 ^ 2 := by norm_num; omega
  have hr := readUInt_uintBytes e 2 d [] hlt
  rw [List.append_nil] at hr
  have h0 : ¬ (d = 0) := by omega
  have h1 : ¬ (d = 1) := by omega
  have h42 : ¬ (d = 42) := by omega
  have h43 : ¬ (d = 43) := by omega
  simp only [exampleEnum, exampleVariants, deserialize, skipPad, hr,
    deserializeVariants, discState]
  norm_num [h0, h1, h42, h43]
  rfl

/-- Witness for C2: discriminant value 7 is rejected with the diagnostic
error. -/
theorem union_discriminant_numbering_witness :
    deserialize .le exampleEnum (uintBytes .le 2 7)
      = .error (.invalidData ("invalid discriminant value for Example: "
          ++ Nat.repr 7)) :=
  union_discriminant_numbering.2.2.2 .le 7 (Or.inl ⟨by norm_num, by norm_num⟩)

/-- C3: for every union with a pre-discriminant padding annotation of `n`
bytes, the annotation is extracted from the `pre_disc_padding` attribute, the
derived decode procedure skips `n` bytes before reading the discriminant
(behaving on the remaining bytes exactly like the same union without the
annotation), and the derived encode procedure writes `n` zero bytes before
the discriminant.  The extraction function is modelled from the spec, its
definition being absent from the sources (see `get_pre_disc_padding`). -/
theorem pre_disc_padding_skip :
    (∀ (n : Nat) (attrs : List Attr),
      get_pre_disc_padding (("pre_disc_padding", n) :: attrs) = some n)
    ∧ (∀ (e : Endianness) (name : String) (w : Nat) (post tr : Option Nat)
        (vl : VariantList) (n : Nat) (bs : Bytes), n ≤ bs.length →
        deserialize e (.enumTy name w (some n) post tr vl) bs
          = deserialize e (.enumTy name w none post tr vl) (bs.drop n))
    ∧ (∀ (e : Endianness) (name : String) (w : Nat) (post tr : Option Nat)
        (vl : VariantList) (n : Nat) (idx : Nat) (vs : ValueList),
        serialize e (.enumTy name w (some n) post tr vl) (.vEnum idx vs)
          = List.replicate n 0
            ++ serialize e (.enumTy name w none post tr vl) (.vEnum idx vs)) := by
  refine ⟨?_, ?_, ?_⟩
  · intro n attrs
    simp [get_pre_disc_padding, get_padding, List.find?]
  · intro e name w post tr vl n bs hn
    simp [deserialize, skipPad, hn]
  · intro e name w post tr vl n idx vs
    simp [serialize, padBytes]

/-- Witness for C3: a 1-byte pre-discriminant pad over a 2-byte stream. -/
theorem pre_disc_padding_skip_witness :
    deserialize .le (.enumTy "E" 1 (some 1) none none (.cons none .nil .nil))
        [0xFF, 0]
      = deserialize .le (.enumTy "E" 1 none none none (.cons none .nil .nil))
          (List.drop 1 [0xFF, 0]) :=
  pre_disc_padding_skip.2.1 .le "E" 1 none none
    (.cons none .nil .nil) 1 [0xFF, 0] (by norm_num)

/-- C4 counterexample: the primitive codec set does not provide both encode
and decode for homogeneous sequences — the `Serialize` impls include slices
and `Vec`s, but the `Deserialize` impls include neither. -/
theorem seq_codec_missing_decode :
    CodecKind.sliceK ∈ serializeImpls ∧ CodecKind.vecK ∈ serializeImpls
    ∧ CodecKind.sliceK ∉ deserializeImpls
    ∧ CodecKind.vecK ∉ deserializeImpls := by
  decide

/-- C4 (amended): the primitive codec set provides encode — but not decode —
for homogeneous sequences of encodable elements: encoding a sequence writes
each element in order with no length prefix or other framing (the encoding is
not self-describing), while element-wise decoding of sequences is not
provided by the codec set. -/
theorem seq_codec_encode_only (α : Type) (enc : α → Bytes) (l : List α) :
    serializeSlice enc l = (l.map enc).flatten
    ∧ CodecKind.sliceK ∈ serializeImpls ∧ CodecKind.vecK ∈ serializeImpls
    ∧ CodecKind.sliceK ∉ deserializeImpls
    ∧ CodecKind.vecK ∉ deserializeImpls := by
  refine ⟨?_, by decide, by decide, by decide, by decide⟩
  induction l with
  | nil => rfl
  | cons x xs ih => simp [serializeSlice, ih]

theorem deserializeVariants_no_match :
    ∀ (vl : VariantList) (e : Endianness) (name : String) (m d base off : Nat)
      (bs : Bytes), d ∉ resolvedDiscsAux m base off vl →
      deserializeVariants e name m d base off vl bs
        = .error (.invalidData
            ("invalid discriminant value for " ++ name ++ ": " ++ Nat.repr d))
  | .nil, _, _, _, _, _, _, _, _ => rfl
  | .cons disc fields rest, e, name, m, d, base, off, bs, hnm => by
    simp only [resolvedDiscsAux, List.mem_cons, not_or] at hnm
    simp only [deserializeVariants]
    rw [if_neg hnm.1]
    rw [deserializeVariants_no_match rest e name m d _ _ bs hnm.2]

theorem deserializeVariants_first_match :
    ∀ (vl : VariantList) (i : Nat) (e : Endianness) (name : String)
      (m d base off : Nat) (bs : Bytes),
      i < vl.length →
      (resolvedDiscsAux m base off vl).getD i 0 = d →
      (∀ j, j < i → (resolvedDiscsAux m base off vl).getD j 0 ≠ d) →
      deserializeVariants e name m d base off vl bs
        = match deserializeFields e (fieldsAt vl i) bs with
          | .error err => .error err
          | .ok (vs, bs1) => .ok (i, vs, bs1)
  | .nil, i, _, _, _, _, _, _, _, hi, _, _ => by
    simp [VariantList.length] at hi
  | .cons disc fields rest, 0, e, name, m, d, base, off, bs, hi, hget, hfirst => by
    simp only [resolvedDiscsAux, List.getD_cons_zero] at hget
    simp only [deserializeVariants, fieldsAt]
    rw [if_pos hget.symm]
  | .cons disc fields rest, i + 1, e, name, m, d, base, off, bs, hi, hget, hfirst => by
    have hhead := hfirst 0 (Nat.succ_pos i)
    simp only [resolvedDiscsAux, List.getD_cons_zero] at hhead
    have hne : ¬ (d = ((discState disc base off).1 + (discState disc base off).2) % m) :=
      fun h => hhead h.symm
    simp only [resolvedDiscsAux, List.getD_cons_succ] at hget
    have hrec := deserializeVariants_first_match rest i e name m d
      (discState disc base off).1 ((discState disc base off).2 + 1) bs
      (by simp only [VariantList.length] at hi; omega) hget
      (fun j hj => by
        have := hfirst (j + 1) (by omega)
        simpa [resolvedDiscsAux, List.getD_cons_succ] using this)
    simp only [deserializeVariants, fieldsAt]
    rw [if_neg hne, hrec]
    cases deserializeFields e (fieldsAt rest i) bs with
    | error err => rfl
    | ok p => rfl

/-- C5: the discriminant dispatch emitted for a union takes variants strictly
in declaration order — the decode of a read value `d` proceeds with the
first variant whose resolved discriminant equals `d`, even when a later
variant resolves to the same value — and produces the invalid-discriminant
error exactly when no variant's resolved discriminant equals `d` (a matching
variant's payload decode may still fail with its own, distinct error). -/
theorem decode_first_match (e : Endianness) (name : String)
    (m d base off : Nat) (vl : VariantList) (bs : Bytes) :
    (d ∉ resolvedDiscsAux m base off vl →
      deserializeVariants e name m d base off vl bs
        = .error (.invalidData
            ("invalid discriminant value for " ++ name ++ ": " ++ Nat.repr d)))
    ∧ (∀ i, i < vl.length →
        (resolvedDiscsAux m base off vl).getD i 0 = d →
        (∀ j, j < i → (resolvedDiscsAux m base off vl).getD j 0 ≠ d) →
        deserializeVariants e name m d base off vl bs
          = match deserializeFields e (fieldsAt vl i) bs with
            | .error err => .error err
            | .ok (vs, bs1) => .ok (i, vs, bs1)) :=
  ⟨deserializeVariants_no_match vl e name m d base off bs,
    fun i hi hget hfirst =>
      deserializeVariants_first_match vl i e name m d base off bs hi hget hfirst⟩

/-- Witness for C5 on a union whose two variants both resolve to discriminant
5: decoding 5 selects the first variant, and decoding 6 fails with the
diagnostic error. -/
theorem decode_first_match_witness :
    deserializeVariants .le "Dup" 256 5 0 0
        (.cons (some 5) .nil (.cons (some 5) .nil .nil)) [] = .ok (0, .nil, [])
    ∧ deserializeVariants .le "Dup" 256 6 0 0
        (.cons (some 5) .nil (.cons (some 5) .nil .nil)) []
      = .error (.invalidData ("invalid discriminant value for " ++ "Dup"
          ++ ": " ++ Nat.repr 6)) :=
  ⟨((decode_first_match .le "Dup" 256 5 0 0
        (.cons (some 5) .nil (.cons (some 5) .nil .nil)) []).2 0
      (by decide) (by decide)
      (fun j hj => absurd hj (by omega))).trans rfl,
    (decode_first_match .le "Dup" 256 6 0 0
        (.cons (some 5) .nil (.cons (some 5) .nil .nil)) []).1 (by decide)⟩

end Endio
